import Mathlib

/-!
Verification development for `obt/linkbase.c` (openbox link database).

The C module maintains a reference-counted "link base": a primary index
mapping a launcher identity (derived from the file's sub path) to a
priority-sorted list of entries, plus a secondary category index mapping a
GQuark category tag to the links declaring it.  Mutation happens in the
filesystem-notification handler `update`.

Shallow embedding conventions:
* GHashTable becomes an association list with replace-on-insert semantics
  (`hlookup` / `hinsert` / `hremove`); observational behavior (lookup)
  matches GHashTable.
* A GSList node used as a cursor (the result of `find_base_entry_path` /
  `find_base_entry_priority`) becomes a zipper `(prefix, element, suffix)`
  so that `g_slist_delete_link` and `g_slist_insert_before` are expressible
  functionally; `none` stands for a NULL node.
* The external collaborators (the `.desktop` parser `obt_link_from_ddfile`,
  which consumes the stored paths/locale, and `obt_link_id_from_ddfile`)
  are a `Collab` record of functions; each processed event carries the
  collaborator behavior current at that moment (file contents change
  between events).  `ObtLink.display` is the precomputed result of
  `obt_link_display(link, self->environments)` for the active environment
  bitmask, and `ObtLink` records the accessor results
  (`obt_link_source_file`, `obt_link_type`, `obt_link_app_categories`).
* A pointer to a parsed link is identified with its record value
  (each `ObtLink` here carries all the data the module ever reads).
* Executions with undefined behavior (NULL dereference, reading the
  uninitialized `priority` local, a hash value left pointing at a freed
  list head) are mapped to `none`; `update` returns
  `Option (state × callback trace)`.
* `self->update_func` is modeled as the Bool "a callback is registered";
  the trace records the invocations the handler makes.
-/

/-- Association-table lookup; mirrors `g_hash_table_lookup` (NULL ↦ `none`). -/
def hlookup {K V : Type} [DecidableEq K] : List (K × V) → K → Option V
  | [], _ => none
  | (k', v) :: rest, k => if k' = k then some v else hlookup rest k

/-- Delete every pair with the given key. -/
def hdel {K V : Type} [DecidableEq K] : List (K × V) → K → List (K × V)
  | [], _ => []
  | (k', v) :: rest, k => if k' = k then hdel rest k else (k', v) :: hdel rest k

/-- Association-table insert with replacement; mirrors `g_hash_table_insert`. -/
def hinsert {K V : Type} [DecidableEq K] (m : List (K × V)) (k : K) (v : V) :
    List (K × V) :=
  (k, v) :: hdel m k

/-- Association-table removal; mirrors `g_hash_table_remove`. -/
def hremove {K V : Type} [DecidableEq K] (m : List (K × V)) (k : K) :
    List (K × V) :=
  hdel m k

/-- The keys of the table are pairwise distinct. -/
def NodupKeys {K V : Type} (m : List (K × V)) : Prop :=
  (m.map Prod.fst).Nodup

/-- Count of occurrences of a value in a list (multiplicity). -/
def lcount {α : Type} [DecidableEq α] (a : α) : List α → Nat
  | [] => 0
  | x :: rest => (if x = a then 1 else 0) + lcount a rest

/-- Remove the first occurrence of a value from a list;
mirrors `g_slist_delete_link` after a linear search by pointer equality. -/
def eraseFirst {α : Type} [DecidableEq α] : List α → α → List α
  | [], _ => []
  | x :: rest, a => if x = a then rest else x :: eraseFirst rest a

/-- Split a list at the first element satisfying `p`, returning the zipper
`(prefix, element, suffix)`; `none` when no element matches.  This models a
GSList search returning the found node (the suffix), keeping the prefix so
deletion and insertion at the node are expressible. -/
def splitFirst {α : Type} (p : α → Bool) : List α → Option (List α × α × List α)
  | [] => none
  | x :: rest =>
    if p x then some ([], x, rest)
    else
      match splitFirst p rest with
      | none => none
      | some (pre, e, suf) => some (x :: pre, e, suf)

/-- Model of `g_str_has_suffix`. -/
def g_str_has_suffix (s : String) (suffix : String) : Bool :=
  List.isSuffixOf suffix.data s.data

/-- Values of `obt_link_type` (obt/link.h). -/
inductive ObtLinkType : Type
  | application
  | url
  | directory
deriving DecidableEq

/-- The data of a parsed launcher record that this module reads through the
`obt_link_*` accessors.  `display` is `obt_link_display` evaluated at the
link base's (fixed) environment bitmask.  Value equality stands for pointer
identity of the parsed object. -/
structure ObtLink : Type where
  source_file : String
  ltype : ObtLinkType
  cats : List Int
  display : Bool
deriving DecidableEq

/-- Model of `struct _ObtLinkBaseEntry`: priority of the base directory the link was
found under, plus the owned link. -/
structure ObtLinkBaseEntry : Type where
  priority : Int
  link : ObtLink
deriving DecidableEq

/-- Model of `ObtWatchNotifyType` (obt/watch.h), as dispatched in `update`. -/
inductive ObtWatchNotifyType : Type
  | added
  | modified
  | removed
  | selfRemoved
deriving DecidableEq

/-- Kind argument of the registered `ObtLinkBaseUpdateFunc` callback. -/
inductive ObtLinkBaseUpdateKind : Type
  | added
  | removed
deriving DecidableEq

/-- One recorded invocation of the registered callback. -/
abbrev UpdateNotice : Type := ObtLinkBaseUpdateKind × ObtLink

/-- A filesystem notification event as delivered to `update`. -/
structure Event : Type where
  base_path : String
  sub_path : String
  full_path : String
  type : ObtWatchNotifyType
deriving DecidableEq

/-- External collaborators at the moment an event is handled:
`parse` is `obt_link_from_ddfile(full_path, paths, language, country,
modifier)` (`none` = parse failure), `idOf` is `obt_link_id_from_ddfile`. -/
structure Collab : Type where
  parse : String → Option ObtLink
  idOf : String → String

/-- Model of `struct _ObtLinkBase`.  Here `base` maps identity to the entry list, sorted by
increasing priority; `path_to_priority` maps a watched path to its priority;
`categories` maps a GQuark to the links in the category (unowned).
`update_func` records whether a callback is registered. -/
structure ObtLinkBase : Type where
  ref : Int
  environments : Nat
  language : Option String
  country : Option String
  modifier : Option String
  base : List (String × List ObtLinkBaseEntry)
  path_to_priority : List (String × Int)
  categories : List (Int × List ObtLink)
  update_func : Bool
deriving DecidableEq

/-- Model of `find_base_entry_path`: first entry whose link's source file equals
`full_path`, as a zipper. -/
def find_base_entry_path (list : List ObtLinkBaseEntry) (full_path : String) :
    Option (List ObtLinkBaseEntry × ObtLinkBaseEntry × List ObtLinkBaseEntry) :=
  splitFirst (fun e => e.link.source_file == full_path) list

/-- Model of `find_base_entry_priority`: first entry with priority ≥ the given one,
as a zipper. -/
def find_base_entry_priority (list : List ObtLinkBaseEntry) (priority : Int) :
    Option (List ObtLinkBaseEntry × ObtLinkBaseEntry × List ObtLinkBaseEntry) :=
  splitFirst (fun e => decide (e.priority ≥ priority)) list

/-- Model of `category_add` on the categories table: create the category on demand
(`links = NULL`), then prepend the link. -/
def category_add (c : List (Int × List ObtLink)) (cat : Int) (link : ObtLink) :
    List (Int × List ObtLink) :=
  match hlookup c cat with
  | none => hinsert c cat [link]
  | some links => hinsert c cat (link :: links)

/-- Model of `category_remove` on the categories table.  The C code dereferences the
looked-up category without a NULL check and scans `lc->links` with
`while (it->data != link)` without a NULL check, so a missing category or a
link absent from its list is a crash (`none`).  When the remaining list is
empty the category is removed from the table. -/
def category_remove (c : List (Int × List ObtLink)) (cat : Int) (link : ObtLink) :
    Option (List (Int × List ObtLink)) :=
  match hlookup c cat with
  | none => none
  | some links =>
    if link ∈ links then
      let links' := eraseFirst links link
      if links'.isEmpty then some (hremove c cat)
      else some (hinsert c cat links')
    else none

/-- The `for (i = 0; i < n; ++i) category_remove(self, cats[i], link)` loop. -/
def category_remove_all (c : List (Int × List ObtLink)) (cats : List Int)
    (link : ObtLink) : Option (List (Int × List ObtLink)) :=
  match cats with
  | [] => some c
  | t :: rest =>
    match category_remove c t link with
    | none => none
    | some c' => category_remove_all c' rest link

/-- The `for (i = 0; i < n; ++i) category_add(self, cats[i], link)` loop. -/
def category_add_all (c : List (Int × List ObtLink)) (cats : List Int)
    (link : ObtLink) : List (Int × List ObtLink) :=
  match cats with
  | [] => c
  | t :: rest => category_add_all (category_add c t link) rest link

/-- The shared body of the `if (it)` blocks of the REMOVED and MODIFIED cases
(lines 172–190 / 208–226): notify the callback with kind REMOVED, and for an
application link un-index every declared category.  Deletion of the entry
from the list is done by the caller.  (The C code binds `it->data` — the
entry — to an `ObtLink *`; the record operations it then performs are read
through the entry's link field.) -/
def remove_found_step (self : ObtLinkBase) (e : ObtLinkBaseEntry) :
    Option (ObtLinkBase × List UpdateNotice) :=
  let cbs : List UpdateNotice :=
    if self.update_func then [(ObtLinkBaseUpdateKind.removed, e.link)] else []
  if e.link.ltype = ObtLinkType.application then
    match category_remove_all self.categories e.link.cats e.link with
    | none => none
    | some c' => some ({ self with categories := c' }, cbs)
  else
    some (self, cbs)

/-- Model of `g_slist_insert_before(list, it, e)`: insert before the node `it`;
a NULL `it` appends at the end. -/
def insert_before (list : List ObtLinkBaseEntry)
    (it : Option (List ObtLinkBaseEntry × ObtLinkBaseEntry × List ObtLinkBaseEntry))
    (e : ObtLinkBaseEntry) : List ObtLinkBaseEntry :=
  match it with
  | none => list ++ [e]
  | some (pre, x, suf) => pre ++ e :: x :: suf

/-- The `if (add)` block at the end of `update` (lines 249–284).
`pri?` is the local `gint *priority`, which the MODIFIED path never assigns
(`none` = uninitialized, so `e->priority = *priority` is undefined).
`skip` is the state resulting from taking no action (parse failure or a
display-ineligible link): on the ADDED path that is the unchanged state; on
the MODIFIED path the shortened list was never written back to the hash
table, which is only consistent when the deleted entry was not the stored
head node (the caller passes `none` when it was).  On success the callback
is notified with kind ADDED, the entry is inserted before `it`, the list is
stored back under `id`, and an application's categories are indexed. -/
def add_step (Cb : Collab) (self : ObtLinkBase) (id : String)
    (list : List ObtLinkBaseEntry) (full_path : String) (pri? : Option Int)
    (it : Option (List ObtLinkBaseEntry × ObtLinkBaseEntry × List ObtLinkBaseEntry))
    (skip : Option ObtLinkBase) (cbs : List UpdateNotice) :
    Option (ObtLinkBase × List UpdateNotice) :=
  match Cb.parse full_path with
  | none => skip.map (fun s => (s, cbs))
  | some link =>
    if link.display = false then skip.map (fun s => (s, cbs))
    else
      match pri? with
      | none => none
      | some pri =>
        let e : ObtLinkBaseEntry := { priority := pri, link := link }
        let cbs' := cbs ++
          (if self.update_func then [(ObtLinkBaseUpdateKind.added, link)] else [])
        let list' := insert_before list it e
        let self' := { self with base := hinsert self.base id list' }
        let self'' :=
          if link.ltype = ObtLinkType.application then
            { self' with categories := category_add_all self'.categories link.cats link }
          else self'
        some (self'', cbs')

/-- Model of `update` (lines 149–287): the filesystem-notification handler.  Returns
the new state and the trace of callback invocations, or `none` when the
execution runs into undefined behavior.  The C locals `id` (freed at the
end) and `list` are written out as `Cb.idOf ev.sub_path` and
`(hlookup self.base …).getD []` at each use. -/
def update (Cb : Collab) (self : ObtLinkBase) (ev : Event) :
    Option (ObtLinkBase × List UpdateNotice) :=
  if g_str_has_suffix ev.sub_path ".desktop" = false then some (self, [])
  else
    match ev.type with
    | ObtWatchNotifyType.selfRemoved => some (self, [])
    | ObtWatchNotifyType.removed =>
      match find_base_entry_path ((hlookup self.base (Cb.idOf ev.sub_path)).getD [])
          ev.full_path with
      | none => some (self, [])
      | some (pre, e, suf) =>
        match remove_found_step self e with
        | none => none
        | some (s1, cbs) =>
          if (pre ++ suf).isEmpty then
            some ({ s1 with base := hremove s1.base (Cb.idOf ev.sub_path) }, cbs)
          else
            some ({ s1 with
              base := hinsert s1.base (Cb.idOf ev.sub_path) (pre ++ suf) }, cbs)
    | ObtWatchNotifyType.modified =>
      match find_base_entry_path ((hlookup self.base (Cb.idOf ev.sub_path)).getD [])
          ev.full_path with
      | none => some (self, [])
      | some (pre, e, suf) =>
        match remove_found_step self e with
        | none => none
        | some (s1, cbs) =>
          add_step Cb s1 (Cb.idOf ev.sub_path) (pre ++ suf) ev.full_path none none
            (if pre.isEmpty then none
             else some { s1 with
               base := hinsert s1.base (Cb.idOf ev.sub_path) (pre ++ suf) })
            cbs
    | ObtWatchNotifyType.added =>
      match hlookup self.path_to_priority ev.base_path with
      | none => none
      | some pri =>
        if (match find_base_entry_priority
              ((hlookup self.base (Cb.idOf ev.sub_path)).getD []) pri with
            | some (_, e, _) => decide (e.priority = pri)
            | none => false) = true
        then some (self, [])
        else
          add_step Cb self (Cb.idOf ev.sub_path)
            ((hlookup self.base (Cb.idOf ev.sub_path)).getD []) ev.full_path (some pri)
            (find_base_entry_priority
              ((hlookup self.base (Cb.idOf ev.sub_path)).getD []) pri)
            (some self) []

/-- Process a sequence of events, each with the collaborator behavior current
at that moment (the parser's answers change as files change). -/
def runEvents : List (Collab × Event) → ObtLinkBase → Option ObtLinkBase
  | [], s => some s
  | (Cb, ev) :: rest, s =>
    match update Cb s ev with
    | none => none
    | some (s', _) => runEvents rest s'

/-- Components extracted from a locale specifier. -/
structure LocaleParts : Type where
  language : Option String
  country : Option String
  modifier : Option String
deriving DecidableEq

/-- ASCII-letter test used by the locale parsing loops
(`(guchar)locale[i] < 'A' || (guchar)locale[i] > 'Z'` etc.). -/
def is_ascii_letter (c : Char) : Bool :=
  ('A' ≤ c && c ≤ 'Z') || ('a' ≤ c && c ≤ 'z')

/-- One locale-parsing loop: scan letters until the terminator (NUL) or one
of `delims` is hit (returning the scanned segment and the rest starting at
the stopping character), or fail at the first other character (the C loops
`break` without setting the field).  Structurally mirrors the
`for (i = 0; ; ++i)` loops of `obt_linkbase_new` (lines 310–348). -/
def scan_seg (delims : List Char) : List Char → Option (List Char) × List Char
  | [] => (some [], [])
  | c :: rest =>
    if delims.contains c then (some [], c :: rest)
    else if is_ascii_letter c then
      match scan_seg delims rest with
      | (some seg, rem) => (some (c :: seg), rem)
      | (none, rem) => (none, rem)
    else (none, c :: rest)

/-- The charset-skipping loop (lines 332–337): starting at the current
character (the `.`), stop at NUL or `@`, and also stop at any non-letter. -/
def scan_skip : List Char → List Char
  | [] => []
  | c :: rest =>
    if c = '@' then c :: rest
    else if is_ascii_letter c then scan_skip rest
    else c :: rest

/-- The locale parsing of `obt_linkbase_new` (lines 308–348): language up to
`_`/`.`/`@`/NUL; country (only if the language was set and stopped at `_`)
up to `.`/`@`/NUL; the charset skip (only if the country was set and stopped
at `.`); modifier (only if the country is set and the current character is
`@`) up to NUL. -/
def parse_locale (locale : String) : LocaleParts :=
  match scan_seg ['_', '.', '@'] locale.data with
  | (none, _) => { language := none, country := none, modifier := none }
  | (some lang, rem) =>
    match rem with
    | [] => { language := some (String.mk lang), country := none, modifier := none }
    | c :: rest =>
      if c = '_' then
        match scan_seg ['.', '@'] rest with
        | (none, _) =>
          { language := some (String.mk lang), country := none, modifier := none }
        | (some ctry, rem2) =>
          let rem3 :=
            match rem2 with
            | '.' :: _ => scan_skip rem2
            | _ => rem2
          match rem3 with
          | '@' :: rest3 =>
            match scan_seg [] rest3 with
            | (none, _) =>
              { language := some (String.mk lang), country := some (String.mk ctry),
                modifier := none }
            | (some md, _) =>
              { language := some (String.mk lang), country := some (String.mk ctry),
                modifier := some (String.mk md) }
          | _ =>
            { language := some (String.mk lang), country := some (String.mk ctry),
              modifier := none }
      else { language := some (String.mk lang), country := none, modifier := none }

/-- The XDG data-dir registration loop of `obt_linkbase_new` (lines 353–373):
for each directory whose *raw* path is not a key of `path_to_priority`
(note: keys are stored with `/applications` appended, so this lookup is
against a different key form), build the watched path, insert the mapping
before installing the watch, and increment the counter.  Returns the state
and the ordered list of `obt_watch_add` calls. -/
def register_data_dirs (self : ObtLinkBase) (priority : Int) :
    List String → ObtLinkBase × List String
  | [] => (self, [])
  | d :: rest =>
    match hlookup self.path_to_priority d with
    | some _ => register_data_dirs self priority rest
    | none =>
      let base_path := d ++ "/applications"
      let self' := { self with
        path_to_priority := hinsert self.path_to_priority base_path priority }
      let r := register_data_dirs self' (priority + 1) rest
      (r.1, base_path :: r.2)

/-- Model of `obt_linkbase_new` (lines 289–375): `g_slice_new0` zero-fills the
structure (in particular `ref = 0`, and no later assignment sets it), the
locale is parsed, and the data dirs are registered.  Returns the state and
the ordered list of watched paths passed to `obt_watch_add`. -/
def obt_linkbase_new (data_dirs : List String) (locale : String)
    (environments : Nat) : ObtLinkBase × List String :=
  let lp := parse_locale locale
  let s0 : ObtLinkBase := {
    ref := 0
    environments := environments
    language := lp.language
    country := lp.country
    modifier := lp.modifier
    base := []
    path_to_priority := []
    categories := []
    update_func := false }
  register_data_dirs s0 0 data_dirs

/-- Model of `obt_linkbase_ref`. -/
def obt_linkbase_ref (self : ObtLinkBase) : ObtLinkBase :=
  { self with ref := self.ref + 1 }

/-- Model of `obt_linkbase_unref`: `if (--self->ref < 1)` the structure is destroyed
(`none`); otherwise the handle stays valid with the decremented count. -/
def obt_linkbase_unref (self : ObtLinkBase) : Option ObtLinkBase :=
  if self.ref - 1 < 1 then none
  else some { self with ref := self.ref - 1 }

/-- Model of `obt_linkbase_set_update_func`; the function/data pair is modeled by
whether a callback is registered. -/
def obt_linkbase_set_update_func (self : ObtLinkBase) (func : Bool) :
    ObtLinkBase :=
  { self with update_func := func }

/-- Model of `obt_linkbase_category`: the links of a category, NULL (empty) when the
category is unknown. -/
def obt_linkbase_category (self : ObtLinkBase) (category : Int) :
    List ObtLink :=
  (hlookup self.categories category).getD []

/-! Concrete fixtures used by the evaluation theorems and witnesses. -/

/-- A display-eligible application link declaring one category (quark 7). -/
def linkFoo : ObtLink :=
  { source_file := "/a/applications/foo.desktop"
    ltype := ObtLinkType.application
    cats := [7]
    display := true }

/-- Collaborators at a moment when `foo.desktop` parses successfully. -/
def collabFoo : Collab :=
  { parse := fun fp => if fp = "/a/applications/foo.desktop" then some linkFoo else none
    idOf := fun sp => sp }

/-- Collaborators at a moment when every parse fails. -/
def collabFail : Collab :=
  { parse := fun _ => none
    idOf := fun sp => sp }

/-- An ADDED notification for `foo.desktop`. -/
def evAddFoo : Event :=
  { base_path := "/a/applications"
    sub_path := "foo.desktop"
    full_path := "/a/applications/foo.desktop"
    type := ObtWatchNotifyType.added }

/-- A MODIFIED notification for `foo.desktop`. -/
def evModFoo : Event := { evAddFoo with type := ObtWatchNotifyType.modified }

/-- A freshly created link base watching one data dir. -/
def lbInit : ObtLinkBase := (obt_linkbase_new ["/a"] "" 0).1

/-- The link base after the initial ADDED event for `foo.desktop`. -/
def lbAfterAdd : ObtLinkBase := (runEvents [(collabFoo, evAddFoo)] lbInit).getD lbInit

/-- C3: refutation by evaluation.  From a fresh link base, `foo.desktop` is
indexed (sole entry of its identity), then a MODIFIED event arrives whose
re-parse fails.  The claim requires the identity's key to be removed from
the Primary Index; instead the MODIFIED branch never writes the shortened
list back (only the add path's `g_hash_table_insert` would, and it is not
reached on parse failure), leaving the key mapped to the freed head node —
modeled as the undefined result `none`. -/
theorem c3_modified_reparse_failure_corrupts_base :
    runEvents [(collabFoo, evAddFoo), (collabFail, evModFoo)] lbInit = none := by
  decide

/-- C4: refutation by evaluation.  A MODIFIED event whose identity has no
entry with the event's full path is a complete no-op (`add` stays FALSE and
the handler returns), even though the parser would have produced a
display-eligible record and a callback is registered: no entry is inserted
and no Added callback fires, contradicting the claim that the Add procedure
still runs. -/
theorem c4_modified_without_prior_entry_is_noop :
    update collabFoo (obt_linkbase_set_update_func lbInit true) evModFoo =
      some (obt_linkbase_set_update_func lbInit true, []) := by
  decide

/-- C5: refutation by evaluation.  A MODIFIED event whose prior entry is
found and removed, with a successful re-parse of a display-eligible record,
reaches `e->priority = *priority` with the local `priority` never assigned
on the MODIFIED path (and `it` dangling after `g_slist_delete_link`): the
execution is undefined (`none`), not the claimed insertion at the base
path's registered priority. -/
theorem c5_modified_reparse_reads_uninitialized_priority :
    runEvents [(collabFoo, evAddFoo), (collabFoo, evModFoo)] lbInit = none := by
  decide

/-- C7: refutation by evaluation.  `g_slice_new0` leaves `ref = 0` and
`obt_linkbase_new` never sets it to 1, so for N = 2 (the create plus one
explicit retain, i.e. `ref = 1`) the first release already satisfies
`--self->ref < 1` and destroys the handle, instead of surviving N − 1 = 1
releases as the claim requires. -/
theorem c7_first_release_after_one_retain_destroys :
    obt_linkbase_unref (obt_linkbase_ref (obt_linkbase_new ["/a"] "" 0).1) = none := by
  decide

/-- C8: refutation by evaluation.  `fr` parses as claimed, but for
`en_US.UTF-8@euro` the charset-skipping loop starts at the `.` and breaks
at the first non-letter (the `.` itself — and `UTF-8` contains further
non-letters), so the scan never reaches the `@` and the modifier is left
unset instead of the claimed `euro`. -/
theorem c8_locale_examples_eval :
    parse_locale "en_US.UTF-8@euro" =
        { language := some "en", country := some "US", modifier := none } ∧
      parse_locale "fr" =
        { language := some "fr", country := none, modifier := none } := by
  constructor
  · decide
  · decide

/-- C9: refutation by evaluation.  The dedup check looks up the raw
directory in `path_to_priority`, but the keys stored there always carry the
`/applications` suffix, so a directory repeated in the provider's list is
registered twice: the watched path's priority is overwritten (0 then 1),
the counter advances twice, and `obt_watch_add` is called twice for the
same path — not "registered only once". -/
theorem c9_duplicate_dir_registered_twice :
    hlookup (obt_linkbase_new ["/a", "/a"] "" 0).1.path_to_priority
        "/a/applications" = some 1 ∧
      (obt_linkbase_new ["/a", "/a"] "" 0).2 =
        ["/a/applications", "/a/applications"] := by
  constructor
  · decide
  · decide

/-! Lemmas about the association-table operations. -/

theorem hlookup_hdel {K V : Type} [DecidableEq K] (m : List (K × V)) (k k' : K) :
    hlookup (hdel m k) k' = if k' = k then none else hlookup m k' := by
  induction m with
  | nil => simp [hdel, hlookup]
  | cons a rest ih =>
    rcases a with ⟨k0, v0⟩
    by_cases h0 : k0 = k
    · subst h0
      rw [hdel, if_pos rfl, ih]
      by_cases h1 : k' = k0
      · simp [h1]
      · simp [hlookup, h1, Ne.symm h1]
    · rw [hdel, if_neg h0]
      by_cases h1 : k0 = k'
      · subst h1
        rw [hlookup, if_pos rfl, hlookup, if_pos rfl, if_neg h0]
      · rw [hlookup, if_neg h1, ih]
        by_cases h2 : k' = k
        · simp [h2]
        · simp [hlookup, h2, h1]

theorem hlookup_hinsert {K V : Type} [DecidableEq K] (m : List (K × V)) (k k' : K)
    (v : V) :
    hlookup (hinsert m k v) k' = if k' = k then some v else hlookup m k' := by
  unfold hinsert
  by_cases h : k = k'
  · subst h
    rw [hlookup, if_pos rfl, if_pos rfl]
  · rw [hlookup, if_neg h, hlookup_hdel, if_neg (Ne.symm h), if_neg (Ne.symm h)]

theorem hlookup_hremove {K V : Type} [DecidableEq K] (m : List (K × V)) (k k' : K) :
    hlookup (hremove m k) k' = if k' = k then none else hlookup m k' :=
  hlookup_hdel m k k'

theorem keys_hdel_subset {K V : Type} [DecidableEq K] (m : List (K × V)) (k x : K)
    (h : x ∈ (hdel m k).map Prod.fst) : x ∈ m.map Prod.fst := by
  induction m with
  | nil => simp [hdel] at h
  | cons a rest ih =>
    rcases a with ⟨k0, v0⟩
    by_cases h0 : k0 = k
    · rw [hdel, if_pos h0] at h
      simp [ih h]
    · rw [hdel, if_neg h0] at h
      rcases List.mem_cons.mp h with h1 | h1
      · simp [h1]
      · simp [ih h1]

theorem not_mem_keys_hdel {K V : Type} [DecidableEq K] (m : List (K × V)) (k : K) :
    k ∉ (hdel m k).map Prod.fst := by
  induction m with
  | nil => simp [hdel]
  | cons a rest ih =>
    rcases a with ⟨k0, v0⟩
    by_cases h0 : k0 = k
    · rw [hdel, if_pos h0]
      exact ih
    · rw [hdel, if_neg h0]
      intro hmem
      rcases List.mem_cons.mp hmem with h1 | h1
      · exact h0 h1.symm
      · exact ih h1

theorem nodupKeys_hdel {K V : Type} [DecidableEq K] (m : List (K × V)) (k : K)
    (h : NodupKeys m) : NodupKeys (hdel m k) := by
  induction m with
  | nil => simpa [hdel] using h
  | cons a rest ih =>
    rcases a with ⟨k0, v0⟩
    unfold NodupKeys at h
    rw [List.map_cons, List.nodup_cons] at h
    by_cases h0 : k0 = k
    · rw [NodupKeys, hdel, if_pos h0]
      exact ih h.2
    · rw [NodupKeys, hdel, if_neg h0, List.map_cons, List.nodup_cons]
      exact ⟨fun hmem => h.1 (keys_hdel_subset rest k k0 hmem), ih h.2⟩

theorem nodupKeys_hinsert {K V : Type} [DecidableEq K] (m : List (K × V)) (k : K)
    (v : V) (h : NodupKeys m) : NodupKeys (hinsert m k v) := by
  rw [NodupKeys, hinsert, List.map_cons, List.nodup_cons]
  exact ⟨not_mem_keys_hdel m k, nodupKeys_hdel m k h⟩

theorem nodupKeys_hremove {K V : Type} [DecidableEq K] (m : List (K × V)) (k : K)
    (h : NodupKeys m) : NodupKeys (hremove m k) :=
  nodupKeys_hdel m k h

/-! Lemmas about `lcount` and `eraseFirst`. -/

theorem lcount_pos_iff_mem {α : Type} [DecidableEq α] (a : α) (xs : List α) :
    0 < lcount a xs ↔ a ∈ xs := by
  induction xs with
  | nil => simp [lcount]
  | cons x rest ih =>
    rcases eq_or_ne x a with h | h
    · subst h
      simp [lcount]
    · simp [lcount, h, Ne.symm h, ih]

theorem lcount_eraseFirst_self {α : Type} [DecidableEq α] (a : α) (xs : List α)
    (h : a ∈ xs) : lcount a (eraseFirst xs a) + 1 = lcount a xs := by
  induction xs with
  | nil => cases h
  | cons x rest ih =>
    rcases eq_or_ne x a with h0 | h0
    · subst h0
      rw [eraseFirst, if_pos rfl, lcount, if_pos rfl]
      omega
    · have hmem : a ∈ rest := by
        rcases List.mem_cons.mp h with h1 | h1
        · exact absurd h1.symm h0
        · exact h1
      rw [eraseFirst, if_neg h0, lcount, lcount, if_neg h0]
      have := ih hmem
      omega

theorem lcount_eraseFirst_ne {α : Type} [DecidableEq α] (a b : α) (xs : List α)
    (h : b ≠ a) : lcount b (eraseFirst xs a) = lcount b xs := by
  induction xs with
  | nil => simp [eraseFirst]
  | cons x rest ih =>
    rcases eq_or_ne x a with h0 | h0
    · subst h0
      rw [eraseFirst, if_pos rfl, lcount, if_neg (Ne.symm h)]
      omega
    · rw [eraseFirst, if_neg h0, lcount, lcount, ih]

/-! Lemmas about `splitFirst`. -/

theorem splitFirst_some {α : Type} {p : α → Bool} :
    ∀ {xs pre suf : List α} {e : α}, splitFirst p xs = some (pre, e, suf) →
      xs = pre ++ e :: suf ∧ (∀ x ∈ pre, p x = false) ∧ p e = true := by
  intro xs
  induction xs with
  | nil => intro pre suf e h; simp [splitFirst] at h
  | cons x rest ih =>
    intro pre suf e h
    by_cases hp : p x = true
    · rw [splitFirst, if_pos hp] at h
      injection h with h1
      injection h1 with h2 h3
      injection h3 with h4 h5
      subst h2; subst h4; subst h5
      refine ⟨rfl, ?_, hp⟩
      intro y hy; cases hy
    · rw [Bool.not_eq_true] at hp
      rw [splitFirst, if_neg (by simp [hp])] at h
      rcases h2 : splitFirst p rest with _ | ⟨pre', e', suf'⟩
      · rw [h2] at h
        exact Option.noConfusion h
      · rw [h2] at h
        have h' : some (x :: pre', e', suf') = some (pre, e, suf) := h
        injection h' with h1
        injection h1 with h3 h4
        injection h4 with h5 h6
        subst h3; subst h5; subst h6
        rcases ih h2 with ⟨ha, hb, hc⟩
        refine ⟨by simp [ha], ?_, hc⟩
        intro y hy
        rcases List.mem_cons.mp hy with h7 | h7
        · subst h7; exact hp
        · exact hb y h7

theorem splitFirst_none {α : Type} {p : α → Bool} :
    ∀ {xs : List α}, splitFirst p xs = none → ∀ x ∈ xs, p x = false := by
  intro xs
  induction xs with
  | nil => intro _ x hx; cases hx
  | cons x rest ih =>
    intro h y hy
    by_cases hp : p x = true
    · rw [splitFirst, if_pos hp] at h
      exact Option.noConfusion h
    · rw [Bool.not_eq_true] at hp
      rw [splitFirst, if_neg (by simp [hp])] at h
      rcases h2 : splitFirst p rest with _ | ⟨pre', e', suf'⟩
      · rcases List.mem_cons.mp hy with h3 | h3
        · subst h3; exact hp
        · exact ih h2 y h3
      · rw [h2] at h
        have h' : some (x :: pre', e', suf') = none := h
        exact Option.noConfusion h'

/-! Counting infrastructure for the Category Index invariant: for each
(tag, link) pair, the number of occurrences of the link in the tag's
category list must equal the total weight the Primary Index assigns to the
pair (one occurrence of the tag in `link.cats` per indexed application
entry holding that link). -/

/-- Occurrences of the tag `t` that the entry `e` contributes for link `l`:
an application entry holding `l` contributes one per occurrence of `t` among
its declared categories; anything else contributes nothing. -/
def entryWeight (t : Int) (l : ObtLink) (e : ObtLinkBaseEntry) : Nat :=
  if e.link = l ∧ e.link.ltype = ObtLinkType.application then lcount t e.link.cats
  else 0

/-- Total `entryWeight` over an entry list. -/
def listWeight (t : Int) (l : ObtLink) (es : List ObtLinkBaseEntry) : Nat :=
  (es.map (entryWeight t l)).sum

/-- Total `entryWeight` over every entry list stored in the Primary Index. -/
def tableWeight (m : List (String × List ObtLinkBaseEntry)) (t : Int)
    (l : ObtLink) : Nat :=
  (m.map (fun p => listWeight t l p.2)).sum

/-- Occurrences of link `l` in tag `t`'s category list. -/
def catCount (c : List (Int × List ObtLink)) (t : Int) (l : ObtLink) : Nat :=
  lcount l ((hlookup c t).getD [])

theorem listWeight_nil (t : Int) (l : ObtLink) : listWeight t l [] = 0 := rfl

theorem listWeight_cons (t : Int) (l : ObtLink) (e : ObtLinkBaseEntry)
    (es : List ObtLinkBaseEntry) :
    listWeight t l (e :: es) = entryWeight t l e + listWeight t l es := by
  simp [listWeight]

theorem listWeight_append (t : Int) (l : ObtLink) (xs ys : List ObtLinkBaseEntry) :
    listWeight t l (xs ++ ys) = listWeight t l xs + listWeight t l ys := by
  simp [listWeight]

theorem tableWeight_cons (k : String) (v : List ObtLinkBaseEntry)
    (m : List (String × List ObtLinkBaseEntry)) (t : Int) (l : ObtLink) :
    tableWeight ((k, v) :: m) t l = listWeight t l v + tableWeight m t l := by
  simp [tableWeight]

theorem hdel_of_not_mem_keys {K V : Type} [DecidableEq K] (m : List (K × V))
    (k : K) (h : k ∉ m.map Prod.fst) : hdel m k = m := by
  induction m with
  | nil => rfl
  | cons a rest ih =>
    rcases a with ⟨k0, v0⟩
    rw [List.map_cons, List.mem_cons] at h
    push_neg at h
    rw [hdel, if_neg (fun he => h.1 he.symm), ih h.2]

theorem tableWeight_hdel (m : List (String × List ObtLinkBaseEntry)) (k : String)
    (t : Int) (l : ObtLink) (h : NodupKeys m) :
    tableWeight (hdel m k) t l + listWeight t l ((hlookup m k).getD []) =
      tableWeight m t l := by
  induction m with
  | nil => simp [hdel, hlookup, tableWeight, listWeight]
  | cons a rest ih =>
    rcases a with ⟨k0, v0⟩
    unfold NodupKeys at h
    rw [List.map_cons, List.nodup_cons] at h
    by_cases h0 : k0 = k
    · subst h0
      rw [hdel, if_pos rfl, hlookup, if_pos rfl, Option.getD_some,
        hdel_of_not_mem_keys rest k0 h.1, tableWeight_cons]
      omega
    · rw [hdel, if_neg h0, hlookup, if_neg h0, tableWeight_cons, tableWeight_cons]
      have hih := ih h.2
      omega

theorem tableWeight_hinsert (m : List (String × List ObtLinkBaseEntry)) (k : String)
    (v : List ObtLinkBaseEntry) (t : Int) (l : ObtLink) (h : NodupKeys m) :
    tableWeight (hinsert m k v) t l + listWeight t l ((hlookup m k).getD []) =
      listWeight t l v + tableWeight m t l := by
  rw [hinsert, tableWeight_cons]
  have := tableWeight_hdel m k t l h
  omega

theorem tableWeight_hremove (m : List (String × List ObtLinkBaseEntry)) (k : String)
    (t : Int) (l : ObtLink) (h : NodupKeys m) :
    tableWeight (hremove m k) t l + listWeight t l ((hlookup m k).getD []) =
      tableWeight m t l :=
  tableWeight_hdel m k t l h

/-! Category Index bookkeeping lemmas. -/

theorem category_add_eq (c : List (Int × List ObtLink)) (t0 : Int) (l0 : ObtLink) :
    category_add c t0 l0 = hinsert c t0 (l0 :: (hlookup c t0).getD []) := by
  unfold category_add
  cases h : hlookup c t0 <;> simp [h]

theorem catCount_category_add (c : List (Int × List ObtLink)) (t0 : Int)
    (l0 : ObtLink) (t : Int) (l : ObtLink) :
    catCount (category_add c t0 l0) t l =
      catCount c t l + (if t = t0 ∧ l0 = l then 1 else 0) := by
  rw [category_add_eq]
  unfold catCount
  rw [hlookup_hinsert]
  by_cases ht : t = t0
  · rw [if_pos ht, Option.getD_some, lcount]
    subst ht
    by_cases hl : l0 = l
    · rw [if_pos hl, if_pos ⟨rfl, hl⟩]
      omega
    · rw [if_neg hl, if_neg (fun hc => hl hc.2)]
      omega
  · rw [if_neg ht, if_neg (fun hc => ht hc.1)]
    omega

theorem catCount_category_remove (c c' : List (Int × List ObtLink)) (t0 : Int)
    (l0 : ObtLink) (h : category_remove c t0 l0 = some c') (t : Int) (l : ObtLink) :
    catCount c' t l + (if t = t0 ∧ l0 = l then 1 else 0) = catCount c t l := by
  unfold category_remove at h
  cases hc : hlookup c t0 with
  | none => rw [hc] at h; exact Option.noConfusion h
  | some links =>
    rw [hc] at h
    have h' : (if l0 ∈ links then
        (if (eraseFirst links l0).isEmpty then some (hremove c t0)
          else some (hinsert c t0 (eraseFirst links l0)))
        else none) = some c' := h
    clear h
    by_cases hmem : l0 ∈ links
    · rw [if_pos hmem] at h'
      by_cases hemp : (eraseFirst links l0).isEmpty
      · rw [if_pos hemp] at h'
        have hc' : c' = hremove c t0 := (Option.some.inj h').symm
        subst hc'
        have hnil : eraseFirst links l0 = [] := by
          cases he : eraseFirst links l0 with
          | nil => rfl
          | cons a as => rw [he] at hemp; simp [List.isEmpty] at hemp
        unfold catCount
        rw [hlookup_hremove]
        by_cases ht : t = t0
        · rw [if_pos ht]
          subst ht
          rw [hc, Option.getD_some]
          by_cases hl : l0 = l
          · subst hl
            have := lcount_eraseFirst_self l0 links hmem
            rw [hnil] at this
            rw [if_pos ⟨rfl, rfl⟩]
            simp [lcount] at this ⊢
            omega
          · have := lcount_eraseFirst_ne l0 l links (fun he => hl he.symm)
            rw [hnil] at this
            rw [if_neg (fun hp => hl hp.2)]
            simp [lcount] at this ⊢
            omega
        · rw [if_neg ht, if_neg (fun hp => ht hp.1)]
          omega
      · rw [if_neg hemp] at h'
        have hc' : c' = hinsert c t0 (eraseFirst links l0) :=
          (Option.some.inj h').symm
        subst hc'
        unfold catCount
        rw [hlookup_hinsert]
        by_cases ht : t = t0
        · rw [if_pos ht]
          subst ht
          rw [hc, Option.getD_some, Option.getD_some]
          by_cases hl : l0 = l
          · subst hl
            rw [if_pos ⟨rfl, rfl⟩]
            exact lcount_eraseFirst_self l0 links hmem
          · rw [if_neg (fun hp => hl hp.2)]
            have := lcount_eraseFirst_ne l0 l links (fun he => hl he.symm)
            omega
        · rw [if_neg ht, if_neg (fun hp => ht hp.1)]
          omega
    · rw [if_neg hmem] at h'
      exact Option.noConfusion h'

theorem catCount_category_remove_all (cats : List Int) :
    ∀ (c c' : List (Int × List ObtLink)) (l0 : ObtLink),
      category_remove_all c cats l0 = some c' → ∀ (t : Int) (l : ObtLink),
        catCount c' t l + (if l0 = l then lcount t cats else 0) = catCount c t l := by
  induction cats with
  | nil =>
    intro c c' l0 h t l
    unfold category_remove_all at h
    have hc : c = c' := Option.some.inj h
    subst hc
    simp [lcount]
  | cons t0 rest ih =>
    intro c c' l0 h t l
    unfold category_remove_all at h
    cases hstep : category_remove c t0 l0 with
    | none => rw [hstep] at h; exact Option.noConfusion h
    | some c1 =>
      rw [hstep] at h
      have h1 := catCount_category_remove c c1 t0 l0 hstep t l
      have h2 := ih c1 c' l0 h t l
      have hl : lcount t (t0 :: rest) =
          (if t0 = t then 1 else 0) + lcount t rest := rfl
      by_cases hll : l0 = l
      · subst hll
        rw [if_pos rfl] at h2 ⊢
        by_cases ht : t = t0
        · subst ht
          rw [if_pos ⟨rfl, rfl⟩] at h1
          rw [hl, if_pos rfl]
          omega
        · rw [if_neg (fun hp => ht hp.1)] at h1
          rw [hl, if_neg (fun hp => ht hp.symm)]
          omega
      · rw [if_neg hll] at h2 ⊢
        by_cases ht : t = t0
        · subst ht
          rw [if_neg (fun hp => hll hp.2)] at h1
          omega
        · rw [if_neg (fun hp => ht hp.1)] at h1
          omega

theorem catCount_category_add_all (cats : List Int) :
    ∀ (c : List (Int × List ObtLink)) (l0 : ObtLink) (t : Int) (l : ObtLink),
      catCount (category_add_all c cats l0) t l =
        catCount c t l + (if l0 = l then lcount t cats else 0) := by
  induction cats with
  | nil =>
    intro c l0 t l
    simp [category_add_all, lcount]
  | cons t0 rest ih =>
    intro c l0 t l
    unfold category_add_all
    rw [ih, catCount_category_add]
    have hl : lcount t (t0 :: rest) =
        (if t0 = t then 1 else 0) + lcount t rest := rfl
    by_cases hll : l0 = l
    · rw [if_pos hll, if_pos hll, hl]
      by_cases ht : t = t0
      · rw [if_pos ⟨ht, hll⟩, if_pos (by rw [ht])]
        omega
      · rw [if_neg (fun hp => ht hp.1), if_neg (fun hp => ht hp.symm)]
        omega
    · rw [if_neg hll, if_neg hll, if_neg (fun hp => hll hp.2)]

/-! Structural analysis of `update`: every defined execution is a no-op, an
entry removal (REMOVED, or MODIFIED's removal whose re-add was skipped), or
a successful add (ADDED only — the MODIFIED re-add path never completes
because its `priority` local is uninitialized). -/


theorem getD_decomp {m : List (String × List ObtLinkBaseEntry)} {k : String}
    {pre suf : List ObtLinkBaseEntry} {e : ObtLinkBaseEntry}
    (h : (hlookup m k).getD [] = pre ++ e :: suf) :
    hlookup m k = some (pre ++ e :: suf) := by
  cases hlu : hlookup m k with
  | none =>
    rw [hlu] at h
    simp at h
  | some v =>
    rw [hlu] at h
    rw [Option.getD_some] at h
    exact congrArg some h

theorem remove_found_step_spec (s s1 : ObtLinkBase) (e : ObtLinkBaseEntry)
    (cbs : List UpdateNotice) (h : remove_found_step s e = some (s1, cbs)) :
    s1.base = s.base ∧ s1.path_to_priority = s.path_to_priority ∧
    s1.update_func = s.update_func ∧
    cbs = (if s.update_func then [(ObtLinkBaseUpdateKind.removed, e.link)] else []) ∧
    ((e.link.ltype = ObtLinkType.application ∧
        category_remove_all s.categories e.link.cats e.link = some s1.categories) ∨
      (e.link.ltype ≠ ObtLinkType.application ∧ s1.categories = s.categories)) := by
  unfold remove_found_step at h
  by_cases happ : e.link.ltype = ObtLinkType.application
  · rw [if_pos happ] at h
    cases hrem : category_remove_all s.categories e.link.cats e.link with
    | none => rw [hrem] at h; exact Option.noConfusion h
    | some c' =>
      rw [hrem] at h
      have h' : (({ s with categories := c' },
          if s.update_func then [(ObtLinkBaseUpdateKind.removed, e.link)] else [])
          : ObtLinkBase × List UpdateNotice) = (s1, cbs) := Option.some.inj h
      injection h' with h1 h2
      subst h1
      exact ⟨rfl, rfl, rfl, h2.symm, Or.inl ⟨happ, rfl⟩⟩
  · rw [if_neg happ] at h
    have h' : ((s, if s.update_func then [(ObtLinkBaseUpdateKind.removed, e.link)] else [])
        : ObtLinkBase × List UpdateNotice) = (s1, cbs) := Option.some.inj h
    injection h' with h1 h2
    subst h1
    exact ⟨rfl, rfl, rfl, h2.symm, Or.inr ⟨happ, rfl⟩⟩

/-- The state produced by a completed add: the new entry is inserted before
the first entry with priority ≥ `pri`, the list is stored back under `id`,
and an application link's categories are indexed.  (Proof-infrastructure
abbreviation for the final state of `add_step`'s success branch.) -/
def add_result (s : ObtLinkBase) (id : String) (pri : Int) (link : ObtLink) :
    ObtLinkBase :=
  if link.ltype = ObtLinkType.application then
    { s with
      base := hinsert s.base id (insert_before ((hlookup s.base id).getD [])
        (find_base_entry_priority ((hlookup s.base id).getD []) pri)
        { priority := pri, link := link })
      categories := category_add_all s.categories link.cats link }
  else
    { s with
      base := hinsert s.base id (insert_before ((hlookup s.base id).getD [])
        (find_base_entry_priority ((hlookup s.base id).getD []) pri)
        { priority := pri, link := link }) }

theorem update_shape {Cb : Collab} {s s' : ObtLinkBase} {ev : Event}
    {cbs : List UpdateNotice} (h : update Cb s ev = some (s', cbs)) :
    (s' = s ∧ cbs = []) ∨
    (∃ pre e suf s1,
      hlookup s.base (Cb.idOf ev.sub_path) = some (pre ++ e :: suf) ∧
      remove_found_step s e = some (s1, cbs) ∧
      ((s' = { s1 with base := hremove s1.base (Cb.idOf ev.sub_path) } ∧
          pre ++ suf = []) ∨
        s' = { s1 with base := hinsert s1.base (Cb.idOf ev.sub_path) (pre ++ suf) })) ∨
    (∃ pri link,
      hlookup s.path_to_priority ev.base_path = some pri ∧
      (∀ pre x suf,
        find_base_entry_priority ((hlookup s.base (Cb.idOf ev.sub_path)).getD []) pri =
          some (pre, x, suf) → ¬x.priority = pri) ∧
      Cb.parse ev.full_path = some link ∧ link.display = true ∧
      cbs = (if s.update_func then [(ObtLinkBaseUpdateKind.added, link)] else []) ∧
      s' = add_result s (Cb.idOf ev.sub_path) pri link) := by
  unfold update at h
  split at h
  · have h1 := Option.some.inj h
    injection h1 with h2 h3
    exact Or.inl ⟨h2.symm, h3.symm⟩
  · split at h
    · -- SELF_REMOVED
      have h1 := Option.some.inj h
      injection h1 with h2 h3
      exact Or.inl ⟨h2.symm, h3.symm⟩
    · -- REMOVED
      split at h
      · have h1 := Option.some.inj h
        injection h1 with h2 h3
        exact Or.inl ⟨h2.symm, h3.symm⟩
      · rename_i pre e suf hfind
        split at h
        · exact Option.noConfusion h
        · rename_i s1 cbs1 hstep
          have hdec := (splitFirst_some hfind).1
          have hlu := getD_decomp hdec
          split at h
          · rename_i hemp
            have h1 := Option.some.inj h
            injection h1 with h2 h3
            subst h3
            exact Or.inr (Or.inl ⟨pre, e, suf, s1, hlu, hstep,
              Or.inl ⟨h2.symm, List.isEmpty_iff.mp hemp⟩⟩)
          · have h1 := Option.some.inj h
            injection h1 with h2 h3
            subst h3
            exact Or.inr (Or.inl ⟨pre, e, suf, s1, hlu, hstep, Or.inr h2.symm⟩)
    · -- MODIFIED
      split at h
      · have h1 := Option.some.inj h
        injection h1 with h2 h3
        exact Or.inl ⟨h2.symm, h3.symm⟩
      · rename_i pre e suf hfind
        split at h
        · exact Option.noConfusion h
        · rename_i s1 cbs1 hstep
          have hdec := (splitFirst_some hfind).1
          have hlu := getD_decomp hdec
          unfold add_step at h
          split at h
          · -- parse failed: the skip path
            split at h
            · simp at h
            · have h1 := Option.some.inj h
              injection h1 with h2 h3
              subst h3
              exact Or.inr (Or.inl ⟨pre, e, suf, s1, hlu, hstep, Or.inr h2.symm⟩)
          · rename_i link hparse
            split at h
            · -- display-ineligible: the skip path
              split at h
              · simp at h
              · have h1 := Option.some.inj h
                injection h1 with h2 h3
                subst h3
                exact Or.inr (Or.inl ⟨pre, e, suf, s1, hlu, hstep, Or.inr h2.symm⟩)
            · -- pri? = none: reading the uninitialized priority
              exact Option.noConfusion h
    · -- ADDED
      split at h
      · exact Option.noConfusion h
      · rename_i pri hpri
        split at h
        · have h1 := Option.some.inj h
          injection h1 with h2 h3
          exact Or.inl ⟨h2.symm, h3.symm⟩
        · rename_i hdup
          unfold add_step at h
          split at h
          · simp at h
            rcases h with ⟨h2, h3⟩
            exact Or.inl ⟨h2.symm, h3⟩
          · rename_i link hparse
            split at h
            · simp at h
              rcases h with ⟨h2, h3⟩
              exact Or.inl ⟨h2.symm, h3⟩
            · rename_i hdisp
              have h' := Option.some.inj h
              injection h' with h2 h3
              refine Or.inr (Or.inr ⟨pri, link, hpri, ?_, hparse, ?_, h3.symm, ?_⟩)
              · intro pre x suf hf
                rw [hf] at hdup
                simp at hdup
                exact hdup
              · simpa using hdisp
              · exact h2.symm

/-! Reachability and the sorted-sequence invariant. -/

theorem runEvents_preserves (P : ObtLinkBase → Prop)
    (hstep : ∀ (Cb : Collab) (s : ObtLinkBase) (ev : Event) (s' : ObtLinkBase)
      (cbs : List UpdateNotice), P s → update Cb s ev = some (s', cbs) → P s') :
    ∀ (steps : List (Collab × Event)) (s0 s : ObtLinkBase),
      P s0 → runEvents steps s0 = some s → P s := by
  intro steps
  induction steps with
  | nil =>
    intro s0 s h0 hrun
    have h1 : some s0 = some s := hrun
    rw [← Option.some.inj h1]
    exact h0
  | cons ce rest ih =>
    intro s0 s h0 hrun
    rcases ce with ⟨Cb, ev⟩
    cases hu : update Cb s0 ev with
    | none =>
      unfold runEvents at hrun
      rw [hu] at hrun
      exact Option.noConfusion hrun
    | some p =>
      rcases p with ⟨s1, cbs⟩
      unfold runEvents at hrun
      rw [hu] at hrun
      have hrun' : runEvents rest s1 = some s := hrun
      exact ih s1 s (hstep Cb s0 ev s1 cbs h0 hu) hrun'

theorem register_data_dirs_frame (dirs : List String) :
    ∀ (s : ObtLinkBase) (pri : Int),
      (register_data_dirs s pri dirs).1.base = s.base ∧
      (register_data_dirs s pri dirs).1.categories = s.categories ∧
      (register_data_dirs s pri dirs).1.update_func = s.update_func := by
  induction dirs with
  | nil => intro s pri; exact ⟨rfl, rfl, rfl⟩
  | cons d rest ih =>
    intro s pri
    unfold register_data_dirs
    cases hl : hlookup s.path_to_priority d with
    | some v =>
      simp only [hl]
      exact ih s pri
    | none =>
      simp only [hl]
      exact ih _ _

theorem obt_linkbase_new_frame (dirs : List String) (locale : String) (env : Nat) :
    (obt_linkbase_new dirs locale env).1.base = [] ∧
    (obt_linkbase_new dirs locale env).1.categories = [] ∧
    (obt_linkbase_new dirs locale env).1.update_func = false := by
  unfold obt_linkbase_new
  exact register_data_dirs_frame dirs _ 0

/-- Each identity's stored entry list is strictly ascending by priority. -/
def SortedBase (s : ObtLinkBase) : Prop :=
  ∀ id list, hlookup s.base id = some list →
    list.Pairwise (fun a b => a.priority < b.priority)

theorem pairwise_insert_before_of_find (list : List ObtLinkBaseEntry) (pri : Int)
    (link : ObtLink)
    (hs : list.Pairwise (fun a b => a.priority < b.priority))
    (hne : ∀ pre x suf, find_base_entry_priority list pri = some (pre, x, suf) →
      ¬x.priority = pri) :
    (insert_before list (find_base_entry_priority list pri)
        { priority := pri, link := link }).Pairwise
      (fun a b => a.priority < b.priority) := by
  cases hf : find_base_entry_priority list pri with
  | none =>
    have hall := splitFirst_none hf
    unfold insert_before
    rw [List.pairwise_append]
    refine ⟨hs, List.pairwise_singleton _ _, ?_⟩
    intro a ha b hb
    rw [List.mem_singleton] at hb
    subst hb
    have h1 := hall a ha
    simp at h1
    exact h1
  | some trip =>
    rcases trip with ⟨pre, x, suf⟩
    obtain ⟨hdec, hpre, hx⟩ := splitFirst_some hf
    have hxp : pri ≤ x.priority := of_decide_eq_true hx
    have hxgt : pri < x.priority :=
      lt_of_le_of_ne hxp (fun hq => hne pre x suf hf hq.symm)
    subst hdec
    rw [List.pairwise_append] at hs
    rcases hs with ⟨hs1, hs2, hs3⟩
    rw [List.pairwise_cons] at hs2
    rcases hs2 with ⟨hs4, hs5⟩
    unfold insert_before
    rw [List.pairwise_append]
    refine ⟨hs1, ?_, ?_⟩
    · rw [List.pairwise_cons]
      constructor
      · intro b hb
        rcases List.mem_cons.mp hb with hb1 | hb1
        · subst hb1; exact hxgt
        · exact lt_trans hxgt (hs4 b hb1)
      · rw [List.pairwise_cons]
        exact ⟨hs4, hs5⟩
    · intro a ha b hb
      rcases List.mem_cons.mp hb with hb1 | hb1
      · subst hb1
        have h1 := hpre a ha
        simp at h1
        exact h1
      · exact hs3 a ha b hb1

theorem sortedBase_update {Cb : Collab} {s s' : ObtLinkBase} {ev : Event}
    {cbs : List UpdateNotice} (h : update Cb s ev = some (s', cbs))
    (hs : SortedBase s) : SortedBase s' := by
  rcases update_shape h with ⟨rfl, -⟩ |
    ⟨pre, e, suf, s1, hlu, hstep, hcase⟩ |
    ⟨pri, link, hpri, hnd, hparse, hdisp, hcbs, rfl⟩
  · exact hs
  · obtain ⟨hb, -, -, -, -⟩ := remove_found_step_spec s s1 e cbs hstep
    rcases hcase with ⟨rfl, -⟩ | rfl
    · intro id' list' hl
      simp only [hlookup_hremove] at hl
      by_cases hid : id' = Cb.idOf ev.sub_path
      · rw [if_pos hid] at hl
        exact Option.noConfusion hl
      · rw [if_neg hid, hb] at hl
        exact hs id' list' hl
    · intro id' list' hl
      simp only [hlookup_hinsert] at hl
      by_cases hid : id' = Cb.idOf ev.sub_path
      · rw [if_pos hid] at hl
        have hl2 := Option.some.inj hl
        subst hl2
        have hp := hs (Cb.idOf ev.sub_path) (pre ++ e :: suf) hlu
        exact hp.sublist
          (List.Sublist.append_left (List.Sublist.cons e (List.Sublist.refl suf)) pre)
      · rw [if_neg hid, hb] at hl
        exact hs id' list' hl
  · intro id' list' hl
    have hbase : (add_result s (Cb.idOf ev.sub_path) pri link).base =
        hinsert s.base (Cb.idOf ev.sub_path)
          (insert_before ((hlookup s.base (Cb.idOf ev.sub_path)).getD [])
            (find_base_entry_priority
              ((hlookup s.base (Cb.idOf ev.sub_path)).getD []) pri)
            { priority := pri, link := link }) := by
      unfold add_result
      by_cases happ : link.ltype = ObtLinkType.application
      · rw [if_pos happ]
      · rw [if_neg happ]
    rw [hbase, hlookup_hinsert] at hl
    by_cases hid : id' = Cb.idOf ev.sub_path
    · rw [if_pos hid] at hl
      have hl2 := Option.some.inj hl
      subst hl2
      have hlp : ((hlookup s.base (Cb.idOf ev.sub_path)).getD []).Pairwise
          (fun a b => a.priority < b.priority) := by
        cases hlu : hlookup s.base (Cb.idOf ev.sub_path) with
        | none => simp
        | some l0 =>
          rw [Option.getD_some]
          exact hs _ l0 hlu
      exact pairwise_insert_before_of_find _ pri link hlp hnd
    · rw [if_neg hid] at hl
      exact hs id' list' hl

/-! The Category Index invariant: multiplicities in the category lists match
the weights contributed by the Primary Index entries. -/

def CatInv (s : ObtLinkBase) : Prop :=
  NodupKeys s.base ∧
  ∀ t l, catCount s.categories t l = tableWeight s.base t l

theorem listWeight_insert_before (old : List ObtLinkBaseEntry) (pri : Int)
    (enew : ObtLinkBaseEntry) (t : Int) (l : ObtLink) :
    listWeight t l (insert_before old (find_base_entry_priority old pri) enew) =
      listWeight t l old + entryWeight t l enew := by
  cases hf : find_base_entry_priority old pri with
  | none =>
    unfold insert_before
    rw [listWeight_append, listWeight_cons, listWeight_nil]
    omega
  | some trip =>
    rcases trip with ⟨pre, x, suf⟩
    obtain ⟨hdec, -, -⟩ := splitFirst_some hf
    subst hdec
    unfold insert_before
    rw [listWeight_append, listWeight_cons, listWeight_cons, listWeight_append,
      listWeight_cons]
    omega

theorem catInv_update {Cb : Collab} {s s' : ObtLinkBase} {ev : Event}
    {cbs : List UpdateNotice} (h : update Cb s ev = some (s', cbs))
    (hc : CatInv s) : CatInv s' := by
  obtain ⟨hnd, hcnt⟩ := hc
  rcases update_shape h with ⟨rfl, -⟩ |
    ⟨pre, e, suf, s1, hlu, hstep, hcase⟩ |
    ⟨pri, link, hpri, hnde, hparse, hdisp, hcbs, rfl⟩
  · exact ⟨hnd, hcnt⟩
  · obtain ⟨hb, -, -, -, hcat⟩ := remove_found_step_spec s s1 e cbs hstep
    have hnd1 : NodupKeys s1.base := by rw [hb]; exact hnd
    have hA : ∀ t l, catCount s1.categories t l + entryWeight t l e =
        catCount s.categories t l := by
      intro t l
      rcases hcat with ⟨happ, hrem⟩ | ⟨happ, hceq⟩
      · have h1 := catCount_category_remove_all e.link.cats s.categories
          s1.categories e.link hrem t l
        have he : entryWeight t l e =
            (if e.link = l then lcount t e.link.cats else 0) := by
          unfold entryWeight
          by_cases hl : e.link = l
          · rw [if_pos ⟨hl, happ⟩, if_pos hl]
          · rw [if_neg (fun hp => hl hp.1), if_neg hl]
        rw [he]
        exact h1
      · have he : entryWeight t l e = 0 := by
          unfold entryWeight
          rw [if_neg (fun hp => happ hp.2)]
        rw [he, hceq]
        omega
    rcases hcase with ⟨rfl, hnil⟩ | rfl
    · rcases List.append_eq_nil.mp hnil with ⟨hpre, hsuf⟩
      subst hpre; subst hsuf
      constructor
      · show NodupKeys (hremove s1.base (Cb.idOf ev.sub_path))
        rw [hb]
        exact nodupKeys_hremove s.base _ hnd
      · intro t l
        show catCount s1.categories t l =
          tableWeight (hremove s1.base (Cb.idOf ev.sub_path)) t l
        have hB := tableWeight_hremove s1.base (Cb.idOf ev.sub_path) t l hnd1
        rw [hb, hlu, Option.getD_some] at hB
        rw [hb]
        have hA' := hA t l
        have hc' := hcnt t l
        rw [List.nil_append, listWeight_cons, listWeight_nil] at hB
        omega
    · constructor
      · show NodupKeys (hinsert s1.base (Cb.idOf ev.sub_path) (pre ++ suf))
        rw [hb]
        exact nodupKeys_hinsert s.base _ _ hnd
      · intro t l
        show catCount s1.categories t l =
          tableWeight (hinsert s1.base (Cb.idOf ev.sub_path) (pre ++ suf)) t l
        have hB := tableWeight_hinsert s1.base (Cb.idOf ev.sub_path) (pre ++ suf)
          t l hnd1
        rw [hb, hlu, Option.getD_some] at hB
        rw [hb]
        have hA' := hA t l
        have hc' := hcnt t l
        rw [listWeight_append, listWeight_cons] at hB
        rw [listWeight_append] at hB
        omega
  · by_cases happ : link.ltype = ObtLinkType.application
    · have hs' : add_result s (Cb.idOf ev.sub_path) pri link =
          { s with
            base := hinsert s.base (Cb.idOf ev.sub_path)
              (insert_before ((hlookup s.base (Cb.idOf ev.sub_path)).getD [])
                (find_base_entry_priority
                  ((hlookup s.base (Cb.idOf ev.sub_path)).getD []) pri)
                { priority := pri, link := link })
            categories := category_add_all s.categories link.cats link } := by
        unfold add_result
        rw [if_pos happ]
      rw [hs']
      constructor
      · exact nodupKeys_hinsert s.base _ _ hnd
      · intro t l
        show catCount (category_add_all s.categories link.cats link) t l =
          tableWeight (hinsert s.base (Cb.idOf ev.sub_path)
            (insert_before ((hlookup s.base (Cb.idOf ev.sub_path)).getD [])
              (find_base_entry_priority
                ((hlookup s.base (Cb.idOf ev.sub_path)).getD []) pri)
              { priority := pri, link := link })) t l
        have hB := tableWeight_hinsert s.base (Cb.idOf ev.sub_path)
          (insert_before ((hlookup s.base (Cb.idOf ev.sub_path)).getD [])
            (find_base_entry_priority
              ((hlookup s.base (Cb.idOf ev.sub_path)).getD []) pri)
            { priority := pri, link := link }) t l hnd
        have hLW := listWeight_insert_before
          ((hlookup s.base (Cb.idOf ev.sub_path)).getD []) pri
          { priority := pri, link := link } t l
        have hadd := catCount_category_add_all link.cats s.categories link t l
        have he : entryWeight t l { priority := pri, link := link } =
            (if link = l then lcount t link.cats else 0) := by
          unfold entryWeight
          by_cases hl : link = l
          · rw [if_pos ⟨hl, happ⟩, if_pos hl]
          · rw [if_neg (fun hp => hl hp.1), if_neg hl]
        have hc' := hcnt t l
        rw [he] at hLW
        omega
    · have hs' : add_result s (Cb.idOf ev.sub_path) pri link =
          { s with
            base := hinsert s.base (Cb.idOf ev.sub_path)
              (insert_before ((hlookup s.base (Cb.idOf ev.sub_path)).getD [])
                (find_base_entry_priority
                  ((hlookup s.base (Cb.idOf ev.sub_path)).getD []) pri)
                { priority := pri, link := link }) } := by
        unfold add_result
        rw [if_neg happ]
      rw [hs']
      constructor
      · exact nodupKeys_hinsert s.base _ _ hnd
      · intro t l
        show catCount s.categories t l =
          tableWeight (hinsert s.base (Cb.idOf ev.sub_path)
            (insert_before ((hlookup s.base (Cb.idOf ev.sub_path)).getD [])
              (find_base_entry_priority
                ((hlookup s.base (Cb.idOf ev.sub_path)).getD []) pri)
              { priority := pri, link := link })) t l
        have hB := tableWeight_hinsert s.base (Cb.idOf ev.sub_path)
          (insert_before ((hlookup s.base (Cb.idOf ev.sub_path)).getD [])
            (find_base_entry_priority
              ((hlookup s.base (Cb.idOf ev.sub_path)).getD []) pri)
            { priority := pri, link := link }) t l hnd
        have hLW := listWeight_insert_before
          ((hlookup s.base (Cb.idOf ev.sub_path)).getD []) pri
          { priority := pri, link := link } t l
        have he : entryWeight t l { priority := pri, link := link } = 0 := by
          unfold entryWeight
          rw [if_neg (fun hp => happ hp.2)]
        have hc' := hcnt t l
        rw [he] at hLW
        omega

/-! Main claim theorems. -/

theorem sum_map_pos_iff {α : Type} (f : α → Nat) (xs : List α) :
    0 < (xs.map f).sum ↔ ∃ x ∈ xs, 0 < f x := by
  induction xs with
  | nil => simp
  | cons x rest ih =>
    simp only [List.map_cons, List.sum_cons]
    constructor
    · intro hp
      by_cases h0 : 0 < f x
      · exact ⟨x, List.mem_cons_self x rest, h0⟩
      · have hx0 : f x = 0 := by omega
        rw [hx0] at hp
        simp at hp
        rcases ih.mp hp with ⟨y, hy, hfy⟩
        exact ⟨y, List.mem_cons_of_mem x hy, hfy⟩
    · intro hex
      rcases hex with ⟨y, hy, hfy⟩
      rcases List.mem_cons.mp hy with h1 | h1
      · subst h1; omega
      · have := ih.mpr ⟨y, h1, hfy⟩
        omega

theorem entryWeight_pos_iff (t : Int) (l : ObtLink) (e : ObtLinkBaseEntry) :
    0 < entryWeight t l e ↔
      e.link = l ∧ e.link.ltype = ObtLinkType.application ∧ t ∈ e.link.cats := by
  unfold entryWeight
  by_cases hcond : e.link = l ∧ e.link.ltype = ObtLinkType.application
  · rw [if_pos hcond]
    rw [lcount_pos_iff_mem]
    constructor
    · intro hm; exact ⟨hcond.1, hcond.2, hm⟩
    · intro hm; exact hm.2.2
  · rw [if_neg hcond]
    constructor
    · intro h0; omega
    · intro hm; exact absurd ⟨hm.1, hm.2.1⟩ hcond

/-- C1: Category Index consistency.  At every state reachable from a freshly
created link base by a sequence of handled update events, a record appears
under tag `t` in the Category Index if and only if it is currently present
in some entry sequence of the Primary Index, has Application kind, and
declares `t` among its categories. -/
theorem c1_category_index_consistency (dirs : List String) (locale : String)
    (env : Nat) (steps : List (Collab × Event)) (s : ObtLinkBase)
    (h : runEvents steps (obt_linkbase_new dirs locale env).1 = some s) :
    ∀ (t : Int) (l : ObtLink),
      l ∈ obt_linkbase_category s t ↔
        ∃ p ∈ s.base, ∃ e ∈ p.2, e.link = l ∧
          e.link.ltype = ObtLinkType.application ∧ t ∈ e.link.cats := by
  have hinit : CatInv (obt_linkbase_new dirs locale env).1 := by
    obtain ⟨hb, hcats, -⟩ := obt_linkbase_new_frame dirs locale env
    constructor
    · rw [NodupKeys, hb]
      simp
    · intro t l
      rw [hb, hcats]
      simp [catCount, tableWeight, lcount, hlookup]
  have hinv : CatInv s := runEvents_preserves CatInv
    (fun Cb s0 ev s1 cbs hP hu => catInv_update hu hP) steps _ s hinit h
  intro t l
  have h1 : l ∈ obt_linkbase_category s t ↔ 0 < catCount s.categories t l := by
    unfold obt_linkbase_category catCount
    exact (lcount_pos_iff_mem l _).symm
  rw [h1, hinv.2 t l]
  unfold tableWeight
  rw [sum_map_pos_iff]
  constructor
  · intro hex
    rcases hex with ⟨p, hp, hpos⟩
    unfold listWeight at hpos
    rcases (sum_map_pos_iff _ _).mp hpos with ⟨e, he, hepos⟩
    exact ⟨p, hp, e, he, (entryWeight_pos_iff t l e).mp hepos⟩
  · intro hex
    rcases hex with ⟨p, hp, e, he, hprop⟩
    refine ⟨p, hp, ?_⟩
    unfold listWeight
    exact (sum_map_pos_iff _ _).mpr ⟨e, he, (entryWeight_pos_iff t l e).mpr hprop⟩

/-- C1 witness: after one ADDED event for an application declaring category
7, the link is in the category and the equivalence is checked concretely. -/
theorem c1_witness :
    linkFoo ∈ obt_linkbase_category lbAfterAdd 7 ↔
      ∃ p ∈ lbAfterAdd.base, ∃ e ∈ p.2, e.link = linkFoo ∧
        e.link.ltype = ObtLinkType.application ∧ (7 : Int) ∈ e.link.cats :=
  c1_category_index_consistency ["/a"] "" 0 [(collabFoo, evAddFoo)] lbAfterAdd
    (by decide) 7 linkFoo

/-- C2: Sorted-sequence invariant.  At every state reachable from a freshly
created link base by a sequence of handled update events, every stored
entry sequence is strictly ascending by priority (hence no two entries
share a priority). -/
theorem c2_sorted_sequences (dirs : List String) (locale : String) (env : Nat)
    (steps : List (Collab × Event)) (s : ObtLinkBase)
    (h : runEvents steps (obt_linkbase_new dirs locale env).1 = some s) :
    ∀ id list, hlookup s.base id = some list →
      list.Pairwise (fun a b => a.priority < b.priority) := by
  have hinit : SortedBase (obt_linkbase_new dirs locale env).1 := by
    intro id list hl
    rw [(obt_linkbase_new_frame dirs locale env).1] at hl
    exact Option.noConfusion hl
  exact runEvents_preserves SortedBase
    (fun Cb s0 ev s1 cbs hP hu => sortedBase_update hu hP) steps _ s hinit h

/-- C2 witness: the sequence stored after one ADDED event is sorted. -/
theorem c2_witness :
    ([{ priority := 0, link := linkFoo }] : List ObtLinkBaseEntry).Pairwise
      (fun a b => a.priority < b.priority) :=
  c2_sorted_sequences ["/a"] "" 0 [(collabFoo, evAddFoo)] lbAfterAdd (by decide)
    "foo.desktop" [{ priority := 0, link := linkFoo }] (by decide)

theorem find_eq_of_sorted_mem (list : List ObtLinkBaseEntry) (pri : Int)
    (hs : list.Pairwise (fun a b => a.priority < b.priority))
    (hex : ∃ e ∈ list, e.priority = pri) :
    ∃ pre x suf, find_base_entry_priority list pri = some (pre, x, suf) ∧
      x.priority = pri := by
  induction list with
  | nil =>
    rcases hex with ⟨e, he, -⟩
    cases he
  | cons a rest ih =>
    rcases hex with ⟨e, he, hep⟩
    rw [List.pairwise_cons] at hs
    by_cases ha : pri ≤ a.priority
    · refine ⟨[], a, rest, ?_, ?_⟩
      · unfold find_base_entry_priority splitFirst
        rw [if_pos (by simp [ha])]
      · rcases List.mem_cons.mp he with h1 | h1
        · subst h1; exact hep
        · have h2 := hs.1 e h1
          omega
    · have hea : e ≠ a := by
        intro hq
        subst hq
        exact ha (le_of_eq hep.symm)
      have hmem : e ∈ rest := by
        rcases List.mem_cons.mp he with h1 | h1
        · exact absurd h1 hea
        · exact h1
      obtain ⟨pre, x, suf, hf, hx⟩ := ih hs.2 ⟨e, hmem, hep⟩
      refine ⟨a :: pre, x, suf, ?_, hx⟩
      unfold find_base_entry_priority at hf ⊢
      unfold splitFirst
      rw [if_neg (by simp [ha]), hf]

/-- C6: Duplicate add rejection.  An ADDED event for a `.desktop` file whose
identity's current (sorted) sequence already contains an entry with exactly
the base path's registered priority is a no-op: the state is unchanged and
no callback is fired. -/
theorem c6_duplicate_add_noop (Cb : Collab) (s : ObtLinkBase) (ev : Event)
    (pri : Int) (list : List ObtLinkBaseEntry)
    (hsuf : g_str_has_suffix ev.sub_path ".desktop" = true)
    (hty : ev.type = ObtWatchNotifyType.added)
    (hpri : hlookup s.path_to_priority ev.base_path = some pri)
    (hlist : hlookup s.base (Cb.idOf ev.sub_path) = some list)
    (hsorted : list.Pairwise (fun a b => a.priority < b.priority))
    (hdup : ∃ e ∈ list, e.priority = pri) :
    update Cb s ev = some (s, []) := by
  obtain ⟨pre, x, suf, hf, hx⟩ := find_eq_of_sorted_mem list pri hsorted hdup
  unfold update
  rw [hsuf, hty, hpri, hlist]
  simp only [Option.getD_some, hf, hx]
  simp

/-- C6 witness: re-adding `foo.desktop` at its already-present priority 0
leaves the state unchanged and fires no callback. -/
theorem c6_witness : update collabFoo lbAfterAdd evAddFoo = some (lbAfterAdd, []) :=
  c6_duplicate_add_noop collabFoo lbAfterAdd evAddFoo 0
    [{ priority := 0, link := linkFoo }] (by decide) rfl (by decide) (by decide)
    (by decide) ⟨{ priority := 0, link := linkFoo }, by decide, by decide⟩

/-- C10: the change callback is never invoked while no callback is
registered: a freshly created link base has no registered callback, and any
defined event handled while no callback is registered produces an empty
callback trace and leaves the callback unregistered — in particular the
synchronous initial population during create fires no Added callback. -/
theorem c10_no_callback_when_unregistered :
    (∀ (dirs : List String) (locale : String) (env : Nat),
      (obt_linkbase_new dirs locale env).1.update_func = false) ∧
    (∀ (Cb : Collab) (s s' : ObtLinkBase) (ev : Event) (cbs : List UpdateNotice),
      s.update_func = false → update Cb s ev = some (s', cbs) →
      cbs = [] ∧ s'.update_func = false) := by
  constructor
  · intro dirs locale env
    exact (obt_linkbase_new_frame dirs locale env).2.2
  · intro Cb s s' ev cbs hf hu
    rcases update_shape hu with ⟨rfl, rfl⟩ |
      ⟨pre, e, suf, s1, hlu, hstep, hcase⟩ |
      ⟨pri, link, hpri, hnde, hparse, hdisp, hcbs, rfl⟩
    · exact ⟨rfl, hf⟩
    · obtain ⟨-, -, hufeq, hcbs, -⟩ := remove_found_step_spec s s1 e cbs hstep
      rw [hf] at hcbs
      simp at hcbs
      refine ⟨hcbs, ?_⟩
      rcases hcase with ⟨rfl, -⟩ | rfl
      · show s1.update_func = false
        rw [hufeq]; exact hf
      · show s1.update_func = false
        rw [hufeq]; exact hf
    · rw [hf] at hcbs
      simp at hcbs
      refine ⟨hcbs, ?_⟩
      show (add_result s (Cb.idOf ev.sub_path) pri link).update_func = false
      unfold add_result
      by_cases happ : link.ltype = ObtLinkType.application
      · rw [if_pos happ]; exact hf
      · rw [if_neg happ]; exact hf

/-- C10 witness: the fresh link base has no callback registered, and its
initial-population ADDED event fires no callback. -/
theorem c10_witness :
    (obt_linkbase_new ["/a"] "" 0).1.update_func = false ∧
    (([] : List UpdateNotice) = [] ∧ lbAfterAdd.update_func = false) :=
  ⟨c10_no_callback_when_unregistered.1 ["/a"] "" 0,
   c10_no_callback_when_unregistered.2 collabFoo lbInit lbAfterAdd evAddFoo []
     (by decide) (by decide)⟩
